import Mathlib

/-
Shallow embedding of src/LZW.py: an LZW text compressor and decompressor
with a 12 bit code space (4096 table entries) and a bit packing layer.
Characters are modelled by their code points (Nat), Python strings by
List Nat, and Python dicts by insertion ordered association lists.
Fallible Python operations (IndexError, KeyError, UnboundLocalError,
OverflowError from int.to_bytes) are modelled with Except.
-/

set_option maxRecDepth 4000

deriving instance DecidableEq for Except

namespace LZW

/-- Failure modes of the embedded Python code: out of range indexing
(IndexError), a missing dictionary key (KeyError), reading a local
variable before its first assignment (UnboundLocalError), and an
int.to_bytes value that does not fit the requested width (OverflowError). -/
inductive Err where
  | indexError
  | keyError
  | unboundLocal
  | overflow
  deriving DecidableEq

/-- Association list model of a Python dict lookup: the value of the first
matching key, if any. -/
def assocLookup {α β : Type} [DecidableEq α] : List (α × β) → α → Option β
  | [], _ => none
  | (k, v) :: t, a => if k = a then some v else assocLookup t a

/-- Python dict assignment d[k] = v: overwrite in place when the key is
already present, otherwise append the new binding, preserving insertion
order. -/
def dictInsert {α β : Type} [DecidableEq α] (t : List (α × β)) (k : α) (v : β) :
    List (α × β) :=
  if (assocLookup t k).isSome then t.map fun p => if p.1 = k then (k, v) else p
  else t ++ [(k, v)]

/-- Encoder state: Compressor._code_table together with
Compressor._next_code. -/
structure EncSt where
  table : List (List Nat × Nat)
  next : Nat
  deriving DecidableEq

/-- Compressor._initialise_code_table builds the 256 base entries, mapping
each single character string chr i to the code i. -/
def baseEnc : List (List Nat × Nat) := (List.range 256).map fun i => ([i], i)

/-- Encoder state right after Compressor._initialise_code_table. -/
def initEnc : EncSt := ⟨baseEnc, 256⟩

/-- Compressor._add_codeword: when _next_code equals _max_code = 4096 the
table is re-initialised first; then the word is bound to _next_code and
_next_code is incremented. -/
def addCodeword (st : EncSt) (w : List Nat) : EncSt :=
  let st' := if st.next = 4096 then initEnc else st
  ⟨dictInsert st'.table w st'.next, st'.next + 1⟩

/-- While loop of Compressor._lzw_compress. The iteration with index i
reads next_char = text[i+1] (empty string when out of range, via
_get_next_char) and tests i == len(text)-1; both depend only on the part
of the text after position i, passed here as rest. With rest = c :: rest2
the next character exists and i is not the last index; with rest = [] the
next character is the empty string and i == len(text)-1. In that last
iteration the membership test is on output_word plus the empty string, so
a hit emits the code of output_word and a miss makes the emission
code_table[output_word] fail with KeyError. -/
def compressLoop (st : EncSt) (ow : List Nat) (rest : List Nat) (acc : List Nat) :
    Except Err (List Nat) :=
  match rest with
  | [] =>
    match assocLookup st.table ow with
    | some code => .ok (acc ++ [code])
    | none => .error .keyError
  | c :: rest2 =>
    match assocLookup st.table (ow ++ [c]) with
    | some _ => compressLoop st (ow ++ [c]) rest2 acc
    | none =>
      match assocLookup st.table ow with
      | some code => compressLoop (addCodeword st (ow ++ [c])) [c] rest2 (acc ++ [code])
      | none => .error .keyError

/-- Compressor._lzw_compress: initialises the code table, reads
output_word = text[0] (IndexError on empty text) and runs the loop. -/
def lzwCompress (text : List Nat) : Except Err (List Nat) :=
  match text with
  | [] => .error .indexError
  | c :: rest => compressLoop initEnc [c] rest []

/-- Bit length of a natural number, as the Python int.bit_length method. -/
def bitLength (c : Nat) : Nat := if c = 0 then 0 else Nat.log2 c + 1

/-- Length of the string produced by format(c, given twelve binary digit
zero padding): the bit length of c, raised to at least 12. -/
def fmtLen (c : Nat) : Nat := max 12 (bitLength c)

/-- Compressor._convert_to_bytes: the binary digit strings of the two codes
are concatenated and parsed back, giving c1 * 2 ^ fmtLen c2 + c2, then
converted by int.to_bytes(3, big endian), which raises OverflowError for
values of 2 ^ 24 or more. -/
def convertToBytes (c1 c2 : Nat) : Except Err (List Nat) :=
  let n := c1 * 2 ^ fmtLen c2 + c2
  if n < 16777216 then .ok [n / 65536, n / 256 % 256, n % 256]
  else .error .overflow

/-- Compressor._padded_convert_to_bytes: four zero bits are appended to the
binary digit string of the code, giving c * 16, then int.to_bytes(2, big
endian), which raises OverflowError for values of 2 ^ 16 or more. -/
def paddedConvertToBytes (c : Nat) : Except Err (List Nat) :=
  let n := c * 16
  if n < 65536 then .ok [n / 256, n % 256]
  else .error .overflow

/-- Compressor._encode_to_bytes: codes are consumed two at a time through
_convert_to_bytes; a final unpaired code goes through
_padded_convert_to_bytes. -/
def encodeToBytes : List Nat → Except Err (List Nat)
  | [] => .ok []
  | [c] => paddedConvertToBytes c
  | c1 :: c2 :: rest =>
    match convertToBytes c1 c2 with
    | .error e => .error e
    | .ok bs =>
      match encodeToBytes rest with
      | .error e => .error e
      | .ok rest2 => .ok (bs ++ rest2)

/-- Decoder state: Decompressor._string_table together with
Decompressor._next_code. -/
structure DecSt where
  table : List (Nat × List Nat)
  next : Nat
  deriving DecidableEq

/-- Decompressor._initialise_string_table builds the 256 base entries,
mapping each code i below 256 to the single character string chr i. -/
def baseDec : List (Nat × List Nat) := (List.range 256).map fun i => (i, [i])

/-- Decoder state right after Decompressor._initialise_string_table. -/
def initDec : DecSt := ⟨baseDec, 256⟩

/-- Decompressor._add_to_string_table: when _next_code equals _max_code =
4096 the table is re-initialised first; then _next_code is bound to the
string and incremented. -/
def addToStringTable (st : DecSt) (s : List Nat) : DecSt :=
  let st' := if st.next = 4096 then initDec else st
  ⟨dictInsert st'.table st'.next s, st'.next + 1⟩

/-- Big endian int.from_bytes. -/
def bytesToInt (bs : List Nat) : Nat := bs.foldl (fun a b => a * 256 + b) 0

/-- Decompressor._process_bytes: the 24 bit integer of the byte group is
split into its top 12 bits (shift right by 12) and bottom 12 bits (mask
with 0xfff). -/
def processBytes (bs : List Nat) : List Nat :=
  [bytesToInt bs / 4096, bytesToInt bs % 4096]

/-- Decompressor._process_padded_bytes: the 16 bit integer of the byte
group shifted right by 4, discarding the padding bits. -/
def processPaddedBytes (bs : List Nat) : Nat := bytesToInt bs / 16

/-- Decompressor._twelve_bit_read: file.read(3) yields the next at most 3
bytes. An empty read stops; a 2 byte read goes through
_process_padded_bytes; any other read, 3 bytes or a dangling single byte,
goes through _process_bytes. -/
def twelveBitRead : List Nat → List Nat
  | [] => []
  | [b] => processBytes [b]
  | [b1, b2] => [processPaddedBytes [b1, b2]]
  | b1 :: b2 :: b3 :: rest => processBytes [b1, b2, b3] ++ twelveBitRead rest

/-- For loop of Decompressor._lzw_decompress over the codes after the
first. The local variable char is only assigned at the end of an
iteration, so it is modelled as an Option that starts as none; the code
miss branch reads it, raising UnboundLocalError when it is still
unassigned. The emitted current string is then indexed at 0 (IndexError
on an empty string), char becomes that first character, old_string plus
char is inserted into the table and old_string becomes current. -/
def decompressLoop (st : DecSt) (old : List Nat) (ch : Option Nat)
    (codes : List Nat) (acc : List Nat) : Except Err (List Nat) :=
  match codes with
  | [] => .ok acc
  | code :: rest =>
    let cur : Except Err (List Nat) :=
      match assocLookup st.table code with
      | some s => .ok s
      | none =>
        match ch with
        | some c0 => .ok (old ++ [c0])
        | none => .error .unboundLocal
    match cur with
    | .error e => .error e
    | .ok [] => .error .indexError
    | .ok (c :: s) =>
      decompressLoop (addToStringTable st (old ++ [c])) (c :: s) (some c) rest
        (acc ++ (c :: s))

/-- Decompressor._lzw_decompress: old_string = string_table[codes[0]]
(IndexError on an empty code list, KeyError when the first code is not in
the fresh table), emitted first, then the loop over the remaining codes.
The decoded strings are joined, modelled as flat concatenation. -/
def lzwDecompress (codes : List Nat) : Except Err (List Nat) :=
  match codes with
  | [] => .error .indexError
  | c0 :: rest =>
    match assocLookup initDec.table c0 with
    | none => .error .keyError
    | some old => decompressLoop initDec old none rest old

/-
Helper lemmas about association lists and the base tables.
-/

theorem assocLookup_append_some {α β : Type} [DecidableEq α] {t : List (α × β)}
    (s : List (α × β)) {a : α} {v : β} (h : assocLookup t a = some v) :
    assocLookup (t ++ s) a = some v := by
  induction t with
  | nil => simp [assocLookup] at h
  | cons p t ih =>
    obtain ⟨k, w⟩ := p
    by_cases hk : k = a
    · simp [assocLookup, hk] at h ⊢
      exact h
    · simp [assocLookup, hk] at h ⊢
      exact ih h

theorem assocLookup_append_none {α β : Type} [DecidableEq α] {t : List (α × β)}
    (s : List (α × β)) {a : α} (h : assocLookup t a = none) :
    assocLookup (t ++ s) a = assocLookup s a := by
  induction t with
  | nil => simp
  | cons p t ih =>
    obtain ⟨k, w⟩ := p
    by_cases hk : k = a
    · simp [assocLookup, hk] at h
    · simp [assocLookup, hk] at h ⊢
      exact ih h

theorem assocLookup_some_mem {α β : Type} [DecidableEq α] {t : List (α × β)}
    {a : α} {v : β} (h : assocLookup t a = some v) : (a, v) ∈ t := by
  induction t with
  | nil => simp [assocLookup] at h
  | cons p t ih =>
    obtain ⟨k, w⟩ := p
    by_cases hk : k = a
    · simp [assocLookup, hk] at h
      simp [hk, h]
    · simp [assocLookup, hk] at h
      exact List.mem_cons_of_mem _ (ih h)

theorem assocLookup_eq_none {α β : Type} [DecidableEq α] {t : List (α × β)}
    {a : α} (h : a ∉ t.map Prod.fst) : assocLookup t a = none := by
  induction t with
  | nil => rfl
  | cons p t ih =>
    obtain ⟨k, w⟩ := p
    have h1 : ¬ k = a := by
      intro hka
      exact h (by simp [hka])
    have h2 : a ∉ t.map Prod.fst := by
      intro hmem
      exact h (by simp [hmem])
    simp [assocLookup, h1, ih h2]

theorem lookup_baseEnc_aux (n i : Nat) :
    assocLookup ((List.range n).map fun j => (([j] : List Nat), j)) [i] =
      if i < n then some i else none := by
  induction n with
  | zero => simp [assocLookup]
  | succ n ih =>
    rw [List.range_succ, List.map_append]
    by_cases h : i < n
    · have h1 : assocLookup ((List.range n).map fun j => (([j] : List Nat), j)) [i] =
          some i := by
        rw [ih]
        simp [h]
      rw [assocLookup_append_some _ h1]
      simp [Nat.lt_succ_of_lt h]
    · have h1 : assocLookup ((List.range n).map fun j => (([j] : List Nat), j)) [i] =
          none := by
        rw [ih]
        simp [h]
      rw [assocLookup_append_none _ h1]
      by_cases h2 : i = n
      · simp [assocLookup, h2, Nat.lt_succ_self]
      · have h3 : ¬ i < n + 1 := by omega
        have h4 : ¬ n = i := by omega
        simp [assocLookup, h3, h4]

theorem lookup_baseDec_aux (n i : Nat) :
    assocLookup ((List.range n).map fun j => (j, ([j] : List Nat))) i =
      if i < n then some [i] else none := by
  induction n with
  | zero => simp [assocLookup]
  | succ n ih =>
    rw [List.range_succ, List.map_append]
    by_cases h : i < n
    · have h1 : assocLookup ((List.range n).map fun j => (j, ([j] : List Nat))) i =
          some [i] := by
        rw [ih]
        simp [h]
      rw [assocLookup_append_some _ h1]
      simp [Nat.lt_succ_of_lt h]
    · have h1 : assocLookup ((List.range n).map fun j => (j, ([j] : List Nat))) i =
          none := by
        rw [ih]
        simp [h]
      rw [assocLookup_append_none _ h1]
      by_cases h2 : i = n
      · simp [assocLookup, h2, Nat.lt_succ_self]
      · have h3 : ¬ i < n + 1 := by omega
        have h4 : ¬ n = i := by omega
        simp [assocLookup, h3, h4]

theorem lookup_baseEnc {i : Nat} (h : i < 256) : assocLookup baseEnc [i] = some i := by
  rw [baseEnc, lookup_baseEnc_aux]
  simp [h]

theorem lookup_baseDec {i : Nat} (h : i < 256) : assocLookup baseDec i = some [i] := by
  rw [baseDec, lookup_baseDec_aux]
  simp [h]

theorem baseEnc_some {w : List Nat} {v : Nat} (h : assocLookup baseEnc w = some v) :
    w = [v] ∧ v < 256 := by
  have hm := assocLookup_some_mem h
  rw [baseEnc, List.mem_map] at hm
  obtain ⟨j, hj, heq⟩ := hm
  rw [List.mem_range] at hj
  have hw : [j] = w := congrArg Prod.fst heq
  have hv : j = v := congrArg Prod.snd heq
  subst hv
  exact ⟨hw.symm, hj⟩

theorem baseEnc_singletons : ∀ p ∈ baseEnc, p.1.length = 1 := by
  intro p hp
  rw [baseEnc, List.mem_map] at hp
  obtain ⟨j, _, hj⟩ := hp
  rw [← hj]
  rfl

/-
Dictionary invariants.
-/

/-- Invariant of the encoder dictionary: the table holds exactly next
entries, next stays in [256, 4096], the 256 base entries are looked up
unchanged, and every stored code is below next. -/
def encInv (st : EncSt) : Prop :=
  st.table.length = st.next ∧
  256 ≤ st.next ∧ st.next ≤ 4096 ∧
  (∀ i, i < 256 → assocLookup st.table [i] = some i) ∧
  (∀ p ∈ st.table, p.2 < st.next)

/-- Invariant of the decoder dictionary: the keys are exactly the codes 0
to next - 1 in order (so the table holds exactly next entries), next
stays in [256, 4096], and the 256 base entries are looked up unchanged. -/
def decInv (st : DecSt) : Prop :=
  st.table.length = st.next ∧
  st.table.map Prod.fst = List.range st.next ∧
  256 ≤ st.next ∧ st.next ≤ 4096 ∧
  (∀ i, i < 256 → assocLookup st.table i = some [i])

theorem encInv_init : encInv initEnc := by
  refine ⟨by simp [initEnc, baseEnc], by simp [initEnc], by simp [initEnc], ?_, ?_⟩
  · intro i hi
    exact lookup_baseEnc hi
  · intro p hp
    rw [initEnc] at hp
    simp only [baseEnc, List.mem_map] at hp
    obtain ⟨j, hj, heq⟩ := hp
    rw [List.mem_range] at hj
    have : j = p.2 := congrArg Prod.snd heq
    simp [initEnc]
    omega

theorem decInv_init : decInv initDec := by
  refine ⟨by simp [initDec, baseDec], ?_, by simp [initDec], by simp [initDec], ?_⟩
  · rw [initDec]
    simp only [baseDec, List.map_map]
    have : (Prod.fst ∘ fun j => (j, ([j] : List Nat))) = id := by
      funext j
      rfl
    rw [this, List.map_id]
  · intro i hi
    exact lookup_baseDec hi

theorem lookup_baseEnc_none {st : EncSt} {w : List Nat}
    (hbase : ∀ i, i < 256 → assocLookup st.table [i] = some i)
    (hm : assocLookup st.table w = none) : assocLookup baseEnc w = none := by
  rcases h : assocLookup baseEnc w with _ | v
  · rfl
  · obtain ⟨hw, hv⟩ := baseEnc_some h
    rw [hw] at hm
    rw [hbase v hv] at hm
    cases hm

/-- Preservation of the encoder invariant by Compressor._add_codeword, for
a word not yet present, the only way the compress loop calls it. -/
theorem encInv_add {st : EncSt} {w : List Nat} (hinv : encInv st)
    (hm : assocLookup st.table w = none) : encInv (addCodeword st w) := by
  obtain ⟨hlen, h256, h4096, hbase, hval⟩ := hinv
  have hstep : ∀ st' : EncSt, encInv st' → assocLookup st'.table w = none →
      st'.next ≤ 4095 →
      encInv ⟨dictInsert st'.table w st'.next, st'.next + 1⟩ := by
    intro st' hinv' hm' hlt
    obtain ⟨hlen', h256', _, hbase', hval'⟩ := hinv'
    have hins : dictInsert st'.table w st'.next = st'.table ++ [(w, st'.next)] := by
      rw [dictInsert, hm']
      rfl
    refine ⟨?_, ?_, ?_, ?_, ?_⟩
    · show (dictInsert st'.table w st'.next).length = st'.next + 1
      simp [hins, hlen']
    · show 256 ≤ st'.next + 1
      omega
    · show st'.next + 1 ≤ 4096
      omega
    · intro i hi
      show assocLookup (dictInsert st'.table w st'.next) [i] = some i
      rw [hins]
      exact assocLookup_append_some _ (hbase' i hi)
    · intro p hp
      show p.2 < st'.next + 1
      have hp2 : p ∈ st'.table ++ [(w, st'.next)] := by
        rw [← hins]
        exact hp
      rw [List.mem_append] at hp2
      rcases hp2 with hp2 | hp2
      · have := hval' p hp2
        omega
      · simp at hp2
        rw [hp2]
        omega
  rw [addCodeword]
  by_cases hfull : st.next = 4096
  · simp only [hfull, if_pos rfl]
    exact hstep initEnc encInv_init
      (lookup_baseEnc_none hbase hm) (by decide)
  · simp only [if_neg hfull]
    exact hstep st ⟨hlen, h256, h4096, hbase, hval⟩ hm (by omega)

/-- Preservation of the decoder invariant by
Decompressor._add_to_string_table, for any inserted string. -/
theorem decInv_add {st : DecSt} (s : List Nat) (hinv : decInv st) :
    decInv (addToStringTable st s) := by
  have hstep : ∀ st' : DecSt, decInv st' → st'.next ≤ 4095 →
      decInv ⟨dictInsert st'.table st'.next s, st'.next + 1⟩ := by
    intro st' hinv' hlt
    obtain ⟨hlen', hkeys', h256', _, hbase'⟩ := hinv'
    have hnotmem : st'.next ∉ st'.table.map Prod.fst := by
      rw [hkeys', List.mem_range]
      omega
    have hm' : assocLookup st'.table st'.next = none := assocLookup_eq_none hnotmem
    have hins : dictInsert st'.table st'.next s = st'.table ++ [(st'.next, s)] := by
      rw [dictInsert, hm']
      rfl
    refine ⟨?_, ?_, ?_, ?_, ?_⟩
    · show (dictInsert st'.table st'.next s).length = st'.next + 1
      simp [hins, hlen']
    · show (dictInsert st'.table st'.next s).map Prod.fst = List.range (st'.next + 1)
      simp only [hins, List.map_append, hkeys', List.range_succ]
      rfl
    · show 256 ≤ st'.next + 1
      omega
    · show st'.next + 1 ≤ 4096
      omega
    · intro i hi
      show assocLookup (dictInsert st'.table st'.next s) i = some [i]
      rw [hins]
      exact assocLookup_append_some _ (hbase' i hi)
  rw [addToStringTable]
  by_cases hfull : st.next = 4096
  · simp only [hfull, if_pos rfl]
    exact hstep initDec decInv_init (by decide)
  · simp only [if_neg hfull]
    obtain ⟨hlen, hkeys, h256, h4096, hbase⟩ := hinv
    exact hstep st ⟨hlen, hkeys, h256, h4096, hbase⟩ (by omega)

/-
Packer and unpacker lemmas.
-/

theorem fmtLen_eq_12 {c : Nat} (h : c < 4096) : fmtLen c = 12 := by
  rw [fmtLen, bitLength]
  by_cases h0 : c = 0
  · simp [h0]
  · have := (Nat.log2_lt h0).mpr (show c < 2 ^ 12 by omega)
    simp [h0]
    omega

/-- Joint specification of Compressor._encode_to_bytes on code sequences
below 4096: the conversion never overflows, unpacking the byte stream with
Decompressor._twelve_bit_read restores the codes, and the byte count is
the ceiling of 12 bits per code over 8 bit bytes. -/
theorem encodeToBytes_spec : ∀ codes : List Nat, (∀ c ∈ codes, c < 4096) →
    ∃ bs, encodeToBytes codes = Except.ok bs ∧ twelveBitRead bs = codes ∧
      bs.length = (codes.length * 12 + 7) / 8
  | [], _ => ⟨[], rfl, rfl, rfl⟩
  | [c], h => by
    have hc : c < 4096 := h c (by simp)
    have h16 : c * 16 < 65536 := by omega
    refine ⟨[c * 16 / 256, c * 16 % 256], ?_, ?_, by simp⟩
    · show paddedConvertToBytes c = _
      rw [paddedConvertToBytes]
      simp [h16]
    · show twelveBitRead [c * 16 / 256, c * 16 % 256] = [c]
      rw [twelveBitRead, processPaddedBytes, bytesToInt]
      simp only [List.foldl]
      have : (0 * 256 + c * 16 / 256) * 256 + c * 16 % 256 = c * 16 := by omega
      rw [this]
      simp [Nat.mul_div_cancel]
  | c1 :: c2 :: rest, h => by
    have h1 : c1 < 4096 := h c1 (by simp)
    have h2 : c2 < 4096 := h c2 (by simp)
    obtain ⟨bs, hok, hread, hlen⟩ :=
      encodeToBytes_spec rest (fun c hc => h c (by simp [hc]))
    have hfmt : fmtLen c2 = 12 := fmtLen_eq_12 h2
    have hpow : (2 : Nat) ^ 12 = 4096 := by norm_num
    have hcond : c1 * 4096 + c2 < 16777216 := by omega
    have hconv : convertToBytes c1 c2 =
        Except.ok [(c1 * 4096 + c2) / 65536, (c1 * 4096 + c2) / 256 % 256,
          (c1 * 4096 + c2) % 256] := by
      rw [convertToBytes]
      simp only [hfmt, hpow]
      simp [hcond]
    refine ⟨[(c1 * 4096 + c2) / 65536, (c1 * 4096 + c2) / 256 % 256,
      (c1 * 4096 + c2) % 256] ++ bs, ?_, ?_, ?_⟩
    · show (match convertToBytes c1 c2 with
        | .error e => Except.error e
        | .ok bs2 =>
          match encodeToBytes rest with
          | .error e => .error e
          | .ok rest2 => .ok (bs2 ++ rest2)) = _
      rw [hconv, hok]
    · simp only [List.cons_append, List.nil_append]
      rw [twelveBitRead, hread, processBytes]
      have hb : bytesToInt [(c1 * 4096 + c2) / 65536, (c1 * 4096 + c2) / 256 % 256,
          (c1 * 4096 + c2) % 256] = c1 * 4096 + c2 := by
        rw [bytesToInt]
        simp only [List.foldl]
        omega
      rw [hb]
      have e1 : (c1 * 4096 + c2) / 4096 = c1 := by omega
      have e2 : (c1 * 4096 + c2) % 4096 = c2 := by omega
      rw [e1, e2]
      rfl
    · simp only [List.length_append, List.length_cons, List.length_nil, hlen]
      omega

/-
Compress loop specification: under the dictionary invariant, with the
current output word present in the table, all remaining characters in the
byte alphabet, and all already emitted codes below 4096, the loop
succeeds, every emitted code is below 4096, and when nothing has been
emitted yet (so the table is still all singletons) the first emitted code
is a base code of at most 255.
-/

theorem compressLoop_spec : ∀ (rest : List Nat) (st : EncSt) (ow acc : List Nat) (w0 : Nat),
    encInv st →
    assocLookup st.table ow = some w0 →
    (∀ c ∈ rest, c < 256) →
    (∀ c ∈ acc, c < 4096) →
    (acc = [] → (∃ ch, ch < 256 ∧ ow = [ch]) ∧ ∀ p ∈ st.table, p.1.length = 1) →
    ∃ codes, compressLoop st ow rest acc = Except.ok codes ∧
      (∀ c ∈ codes, c < 4096) ∧
      ∃ tl, codes = acc ++ tl ∧ (acc = [] → ∃ c0 t, tl = c0 :: t ∧ c0 ≤ 255)
  | [], st, ow, acc, w0, hinv, hw, _, hacc, h0 => by
    have hw0lt : w0 < 4096 := by
      obtain ⟨_, _, h4096, _, hval⟩ := hinv
      have := hval _ (assocLookup_some_mem hw)
      omega
    refine ⟨acc ++ [w0], ?_, ?_, [w0], rfl, ?_⟩
    · simp only [compressLoop, hw]
    · intro x hx
      rw [List.mem_append] at hx
      rcases hx with hx | hx
      · exact hacc x hx
      · simp at hx
        omega
    · intro ha
      obtain ⟨⟨ch, hch, how⟩, _⟩ := h0 ha
      refine ⟨w0, [], rfl, ?_⟩
      obtain ⟨_, _, _, hbase, _⟩ := hinv
      rw [how, hbase ch hch] at hw
      have := Option.some.inj hw
      omega
  | c :: rest2, st, ow, acc, w0, hinv, hw, hrest, hacc, h0 => by
    have hc : c < 256 := hrest c (by simp)
    have hrest2 : ∀ x ∈ rest2, x < 256 := fun x hx => hrest x (by simp [hx])
    have hw0lt : w0 < 4096 := by
      obtain ⟨_, _, h4096, _, hval⟩ := hinv
      have := hval _ (assocLookup_some_mem hw)
      omega
    rcases hext : assocLookup st.table (ow ++ [c]) with _ | code2
    · have hinv2 : encInv (addCodeword st (ow ++ [c])) := encInv_add hinv hext
      have hlook2 : assocLookup (addCodeword st (ow ++ [c])).table [c] = some c := by
        obtain ⟨_, _, _, hbase2, _⟩ := hinv2
        exact hbase2 c hc
      have hacc2 : ∀ x ∈ acc ++ [w0], x < 4096 := by
        intro x hx
        rw [List.mem_append] at hx
        rcases hx with hx | hx
        · exact hacc x hx
        · simp at hx
          omega
      obtain ⟨codes, hok, hall, tl, htl, _⟩ :=
        compressLoop_spec rest2 (addCodeword st (ow ++ [c])) [c] (acc ++ [w0]) c
          hinv2 hlook2 hrest2 hacc2 (by intro hcontra; simp at hcontra)
      refine ⟨codes, ?_, hall, [w0] ++ tl, ?_, ?_⟩
      · simp only [compressLoop, hext, hw]
        exact hok
      · rw [htl]
        simp
      · intro ha
        refine ⟨w0, tl, rfl, ?_⟩
        obtain ⟨⟨ch, hch, how⟩, _⟩ := h0 ha
        obtain ⟨_, _, _, hbase, _⟩ := hinv
        rw [how, hbase ch hch] at hw
        have := Option.some.inj hw
        omega
    · cases acc with
      | nil =>
        exfalso
        obtain ⟨⟨ch, hch, how⟩, hsing⟩ := h0 rfl
        have hmem := assocLookup_some_mem hext
        have hlen := hsing _ hmem
        rw [how] at hlen
        simp at hlen
      | cons a acc2 =>
        obtain ⟨codes, hok, hall, tl, htl, _⟩ :=
          compressLoop_spec rest2 st (ow ++ [c]) (a :: acc2) code2
            hinv hext hrest2 hacc (by intro hcontra; cases hcontra)
        refine ⟨codes, ?_, hall, tl, htl, by intro hcontra; cases hcontra⟩
        simp only [compressLoop, hext]
        exact hok

/-
Claim theorems.
-/

/-- C1: the spec states decode(encode(s)) = s for every non-empty string
over the byte alphabet. The code violates this: for s = chr 65 repeated
three times, _lzw_compress emits [65, 256], and _lzw_decompress, meeting
the self referential code 256 on the first loop iteration, reads the
local variable char before its first assignment (an UnboundLocalError in
Python) instead of returning s. -/
theorem c1_roundtrip_failure :
    lzwCompress [65, 65, 65] = Except.ok [65, 256] ∧
    lzwDecompress [65, 256] = Except.error Err.unboundLocal :=
  ⟨by decide, by decide⟩

/-- C2: for every sequence of codes in [0, 4095], packing with
_encode_to_bytes succeeds and unpacking the resulting byte stream with
_twelve_bit_read returns exactly the original code sequence. -/
theorem c2_unpack_inverts_pack (codes : List Nat) (h : ∀ c ∈ codes, c < 4096) :
    ∃ bs, encodeToBytes codes = Except.ok bs ∧ twelveBitRead bs = codes := by
  obtain ⟨bs, h1, h2, _⟩ := encodeToBytes_spec codes h
  exact ⟨bs, h1, h2⟩

theorem c2_unpack_inverts_pack_witness :
    (∀ c ∈ ([65, 256, 4095] : List Nat), c < 4096) ∧
    ∃ bs, encodeToBytes [65, 256, 4095] = Except.ok bs ∧
      twelveBitRead bs = [65, 256, 4095] :=
  ⟨by decide, c2_unpack_inverts_pack [65, 256, 4095] (by decide)⟩

/-- C3 counterexample: encoding the four character input chr 65 repeated
four times does not produce [65, 256]; the code produces [65, 256, 65]. -/
theorem c3_encode_four_counterexample :
    lzwCompress [65, 65, 65, 65] ≠ Except.ok [65, 256] := by decide

/-- C3 amended: encoding chr 65 repeated four times produces exactly
[65, 256, 65], and decoding that encoder output does not return the
original text but fails with the unassigned local variable error, because
the second code 256 is the self referential case. -/
theorem c3_encode_four_amended :
    lzwCompress [65, 65, 65, 65] = Except.ok [65, 256, 65] ∧
    lzwDecompress [65, 256, 65] = Except.error Err.unboundLocal :=
  ⟨by decide, by decide⟩

/-- C4 counterexample: decoding [65, 65, 300] returns output with no
error, although when code 300 is reached it is absent from the reverse
table and differs from the next assignable code 257, the situation the
claim says must be detected and reported as a corrupted stream. -/
theorem c4_corrupt_code_counterexample :
    lzwDecompress [65, 65, 300] = Except.ok [65, 65, 65, 65] ∧
    assocLookup (addToStringTable initDec [65, 65]).table 300 = none ∧
    (addToStringTable initDec [65, 65]).next = 257 :=
  ⟨by decide, by decide, by decide⟩

/-- C4 amended: on a code miss the decoder never compares the code with
the next assignable code and never reports a corrupted stream error. On
any iteration after the first, a miss on any code whatsoever silently
produces old_string plus the first symbol of old_string and decoding
continues; a miss on the first iteration instead fails with the
unassigned local variable error, again for any code whatsoever. -/
theorem c4_miss_behavior_amended :
    (∀ (st : DecSt) (o : Nat) (old2 : List Nat) (ch code : Nat) (rest acc : List Nat),
      assocLookup st.table code = none →
      decompressLoop st (o :: old2) (some ch) (code :: rest) acc =
        decompressLoop (addToStringTable st (o :: old2 ++ [o])) (o :: old2 ++ [ch])
          (some o) rest (acc ++ (o :: old2 ++ [ch]))) ∧
    (∀ (st : DecSt) (old : List Nat) (code : Nat) (rest acc : List Nat),
      assocLookup st.table code = none →
      decompressLoop st old none (code :: rest) acc = Except.error Err.unboundLocal) := by
  constructor
  · intro st o old2 ch code rest acc h
    simp only [decompressLoop, h, List.cons_append]
  · intro st old code rest acc h
    simp only [decompressLoop, h]

theorem c4_miss_behavior_amended_witness :
    assocLookup initDec.table 300 = none ∧
    decompressLoop initDec [65] (some 65) [300] [] =
      decompressLoop (addToStringTable initDec [65, 65]) [65, 65] (some 65) [] [65, 65] ∧
    decompressLoop initDec [65] none [300] [] = Except.error Err.unboundLocal :=
  ⟨by decide,
    c4_miss_behavior_amended.1 initDec 65 [] 65 300 [] [] (by decide),
    c4_miss_behavior_amended.2 initDec [65] 300 [] [] (by decide)⟩

/-- C5 counterexample: a byte stream that is a single dangling byte is not
treated as an error; _twelve_bit_read feeds it to _process_bytes and
returns the code sequence [0, 65]. -/
theorem c5_dangling_byte_counterexample : twelveBitRead [65] = [0, 65] := by decide

/-- C5 amended: a final incomplete group of exactly one byte b after any
whole number of 3 byte groups is not detected as corruption; the reader
puts it through the 3 byte branch and appends the two spurious codes 0
and b to the result. -/
theorem c5_dangling_byte_amended : ∀ bs : List Nat, bs.length % 3 = 0 →
    ∀ b : Nat, b < 256 → twelveBitRead (bs ++ [b]) = twelveBitRead bs ++ [0, b]
  | [], _, b, hb => by
    simp only [List.nil_append, twelveBitRead, processBytes, bytesToInt, List.foldl]
    have e1 : (0 * 256 + b) / 4096 = 0 := by omega
    have e2 : (0 * 256 + b) % 4096 = b := by omega
    rw [e1, e2]
  | [x], h, b, hb => by simp at h
  | [x, y], h, b, hb => by simp at h
  | x :: y :: z :: t, h, b, hb => by
    have ht : t.length % 3 = 0 := by
      simp only [List.length_cons] at h
      omega
    simp only [List.cons_append, twelveBitRead, List.append_eq]
    rw [c5_dangling_byte_amended t ht b hb]
    simp [List.append_assoc]

theorem c5_dangling_byte_amended_witness :
    ([1, 2, 3] : List Nat).length % 3 = 0 ∧ (65 : Nat) < 256 ∧
    twelveBitRead ([1, 2, 3] ++ [65]) = twelveBitRead [1, 2, 3] ++ [0, 65] :=
  ⟨by decide, by decide, c5_dangling_byte_amended [1, 2, 3] (by decide) 65 (by decide)⟩

/-- C6: inserting into a dictionary whose next code is 4096 first resets
it fully: the result equals an insert into the freshly initialised
dictionary, the inserted key becomes the next sequence after the reset at
code 256 with next code 257, and every surviving entry is either a base
entry or that new binding, so no learned entry survives and the inserted
key is not re-added with its pre reset code; identically for the encoder
table (_add_codeword) and the decoder table (_add_to_string_table). -/
theorem c6_insert_at_capacity_resets :
    ∀ (t : List (List Nat × Nat)) (u : List (Nat × List Nat)) (w : List Nat) (s : List Nat),
      addCodeword ⟨t, 4096⟩ w = addCodeword initEnc w ∧
      addCodeword ⟨t, 4096⟩ w = ⟨dictInsert baseEnc w 256, 257⟩ ∧
      (∀ p ∈ (addCodeword ⟨t, 4096⟩ w).table, p ∈ baseEnc ∨ p = (w, 256)) ∧
      addToStringTable ⟨u, 4096⟩ s = addToStringTable initDec s ∧
      addToStringTable ⟨u, 4096⟩ s = ⟨baseDec ++ [(256, s)], 257⟩ := by
  intro t u w s
  refine ⟨rfl, rfl, ?_, rfl, ?_⟩
  · intro p hp
    have hp2 : p ∈ dictInsert baseEnc w 256 := hp
    rw [dictInsert] at hp2
    by_cases hcase : (assocLookup baseEnc w).isSome
    · rw [if_pos hcase, List.mem_map] at hp2
      obtain ⟨q, hq, hpq⟩ := hp2
      by_cases hqw : q.1 = w
      · right
        rw [← hpq]
        simp [hqw]
      · left
        rw [← hpq]
        simp only [if_neg hqw]
        exact hq
    · rw [if_neg hcase, List.mem_append] at hp2
      rcases hp2 with h | h
      · left
        exact h
      · right
        simpa using h
  · show (⟨dictInsert baseDec 256 s, 257⟩ : DecSt) = ⟨baseDec ++ [(256, s)], 257⟩
    have hnone : assocLookup baseDec 256 = none := by
      rw [baseDec, lookup_baseDec_aux]
      simp
    rw [dictInsert, hnone]
    rfl

/-- C7: for every sequence of codes in [0, 4095] the packer succeeds and
the byte stream it produces has length exactly the ceiling of
len(codes) * 12 / 8: each pair of codes contributes 3 bytes and a lone
trailing code contributes 2 bytes. -/
theorem c7_packed_length (codes : List Nat) (h : ∀ c ∈ codes, c < 4096) :
    ∃ bs, encodeToBytes codes = Except.ok bs ∧
      bs.length = (codes.length * 12 + 7) / 8 := by
  obtain ⟨bs, h1, _, h3⟩ := encodeToBytes_spec codes h
  exact ⟨bs, h1, h3⟩

theorem c7_packed_length_witness :
    (∀ c ∈ ([70, 71, 72] : List Nat), c < 4096) ∧
    ∃ bs, encodeToBytes [70, 71, 72] = Except.ok bs ∧
      bs.length = (([70, 71, 72] : List Nat).length * 12 + 7) / 8 :=
  ⟨by decide, c7_packed_length [70, 71, 72] (by decide)⟩

/-- C8: both dictionaries satisfy, at initialisation, an invariant
preserved by every insertion the algorithms perform: the table holds
exactly next_code entries, next_code starts at 256 and grows by one per
inserted sequence, and the 256 base entries are never modified or
removed. Encoder insertions are always of absent words, the only way
_lzw_compress calls _add_codeword. -/
theorem c8_dictionary_invariant :
    encInv initEnc ∧ decInv initDec ∧
    (∀ (st : EncSt) (w : List Nat), encInv st → assocLookup st.table w = none →
      encInv (addCodeword st w)) ∧
    (∀ (st : DecSt) (s : List Nat), decInv st → decInv (addToStringTable st s)) :=
  ⟨encInv_init, decInv_init, fun _ _ h1 h2 => encInv_add h1 h2, fun _ s h => decInv_add s h⟩

theorem c8_dictionary_invariant_witness :
    encInv (addCodeword initEnc [65, 66]) ∧ decInv (addToStringTable initDec [65, 66]) :=
  ⟨c8_dictionary_invariant.2.2.1 initEnc [65, 66] c8_dictionary_invariant.1 (by decide),
    c8_dictionary_invariant.2.2.2 initDec [65, 66] c8_dictionary_invariant.2.1⟩

/-- C9: both encoding and decoding fail with an error on zero length
input and never return a result: text[0] and codes[0] raise IndexError,
the failure mode the spec names EmptyInputError. -/
theorem c9_empty_input_errors :
    lzwCompress [] = Except.error Err.indexError ∧
    lzwDecompress [] = Except.error Err.indexError :=
  ⟨rfl, rfl⟩

/-- C10: for every non-empty input over the byte alphabet the encoder
succeeds, every emitted code lies below 4096, the first emitted code is
at most 255, and packing the emitted codes with _encode_to_bytes never
overflows. -/
theorem c10_codes_in_range (text : List Nat) (hne : text ≠ [])
    (halpha : ∀ c ∈ text, c < 256) :
    ∃ codes bs, lzwCompress text = Except.ok codes ∧
      (∀ c ∈ codes, c < 4096) ∧
      (∃ c0 t, codes = c0 :: t ∧ c0 ≤ 255) ∧
      encodeToBytes codes = Except.ok bs := by
  match text, hne with
  | c :: rest, _ =>
    have hc : c < 256 := halpha c (by simp)
    have hrest : ∀ x ∈ rest, x < 256 := fun x hx => halpha x (by simp [hx])
    obtain ⟨codes, hok, hall, tl, htl, hhead⟩ :=
      compressLoop_spec rest initEnc [c] [] c encInv_init
        (lookup_baseEnc hc) hrest (by simp)
        (fun _ => ⟨⟨c, hc, rfl⟩, baseEnc_singletons⟩)
    obtain ⟨bs, hbs, _, _⟩ := encodeToBytes_spec codes hall
    refine ⟨codes, bs, hok, hall, ?_, hbs⟩
    rw [htl, List.nil_append]
    exact hhead rfl

theorem c10_codes_in_range_witness :
    (([65, 66, 65] : List Nat) ≠ [] ∧ ∀ c ∈ ([65, 66, 65] : List Nat), c < 256) ∧
    ∃ codes bs, lzwCompress [65, 66, 65] = Except.ok codes ∧
      (∀ c ∈ codes, c < 4096) ∧
      (∃ c0 t, codes = c0 :: t ∧ c0 ≤ 255) ∧
      encodeToBytes codes = Except.ok bs :=
  ⟨⟨by decide, by decide⟩, c10_codes_in_range [65, 66, 65] (by decide) (by decide)⟩

end LZW
